import Mathlib

/-!
Verification of the reciprocal-space electrostatics engine of
pymuon-suite (`pymuonsuite/calculate/uep/charged.py`, class
`ChargeDistribution`).

The construction (`__init__`) and the query methods (`rho`, `V`, `dV`,
`d2V`, `Hfine`) are embedded shallowly: machine floats become real
numbers, numpy complex arrays become functions into `ℂ` indexed by the
FFT grid, and Python exceptions become an `Except` monad with an
explicit error type.  File parsing (FMTReader, ase, pseudopotential
tables) is out of scope per the specification; the construction is
modelled from the point where the grid, lattice, positions and the
resolved per-atom charge/radius arrays are in memory.
-/

noncomputable section

open scoped BigOperators

/-- Python exceptions relevant to this module: `TypeError` (raised e.g.
when a non-callable object is called) and `RuntimeError` with a message. -/
inductive PyError where
  | typeError : PyError
  | runtimeError (msg : String) : PyError
deriving DecidableEq

/-- scipy `constants.epsilon_0` (vacuum permittivity, CODATA 2018). -/
def epsilon0 : ℝ := 8.8541878128e-12

/-- scipy `constants.e` (elementary charge). -/
def eCharge : ℝ := 1.602176634e-19

/-- scipy `constants.mu_0` (vacuum permeability, CODATA 2018). -/
def mu0 : ℝ := 1.25663706212e-6

/-- scipy Bohr magneton in J/T. -/
def bohrMagneton : ℝ := 9.2740100783e-24

/-- Absolute value of the electron g factor. -/
def electronGAbs : ℝ := 2.00231930436256

/-- Coulomb constant `_cK = 1/(4 pi epsilon_0)` from the module header. -/
def cK : ℝ := 1.0 / (4.0 * Real.pi * epsilon0)

/-- `_dipT`: conversion of dipolar couplings to Tesla. -/
def dipT : ℝ := mu0 / (4 * Real.pi) * bohrMagneton * 1e30 * electronGAbs

/-- `_fermiT`: conversion of the Fermi contact term to Tesla. -/
def fermiT : ℝ := 2.0 / 3.0 * mu0 * bohrMagneton * 1e30 * electronGAbs

/-- `np.isclose a b rtol atol` for scalars:
`|a - b| <= atol + rtol * |b|` (numpy's documented formula). -/
def pyIsclose (a b rtol atol : ℝ) : Prop := |a - b| ≤ atol + rtol * |b|

instance pyIscloseDec (a b rtol atol : ℝ) : Decidable (pyIsclose a b rtol atol) :=
  Real.decidableLE _ _

/-- Fuelled worker splitting a list into contiguous chunks of size `B`. -/
def chunkListF {α : Type _} : ℕ → ℕ → List α → List (List α)
  | 0, _, _ => []
  | _ + 1, _, [] => []
  | fuel + 1, B, l => l.take B :: chunkListF fuel B (l.drop B)

/-- Modelled from the spec: `make_process_slices` (in `pymuonsuite.utils`,
not part of the provided sources) partitions `N` points into contiguous
chunks of at most `B` points, in order.  Here the point list itself is
split into those contiguous chunks. -/
def chunkList {α : Type _} (B : ℕ) (l : List α) : List (List α) :=
  chunkListF l.length B l

/-- Evaluation of `f` over a point list following the slicing pattern of
the query methods: each contiguous chunk is processed on its own (the
vectorized numpy computation evaluates, for each point of the chunk, the
same per-point expression) and the chunk results fill the output array in
their original positions. -/
def evalChunked {α β : Type _} (f : α → β) (ps : List α) (B : ℕ) : List β :=
  ((chunkList B ps).map (List.map f)).flatten

/-- In-memory input of `ChargeDistribution.__init__` after the external
loaders (FMTReader for the `.den_fmt` grid, ase for the structure, the
pseudopotential table giving per-atom charge `q` and radius) have run:
grid shape, real lattice, density channels, atom data. -/
structure UEPInput where
  n1 : ℕ
  n2 : ℕ
  n3 : ℕ
  lattice : Matrix (Fin 3) (Fin 3) ℝ
  rho0 : Fin n1 × Fin n2 × Fin n3 → ℝ
  spin0 : Option (Fin n1 × Fin n2 × Fin n3 → ℝ)
  natoms : ℕ
  q : Fin natoms → ℝ
  pradius : Fin natoms → ℝ
  pos : Fin natoms → Fin 3 → ℝ

/-- Integer FFT frequency `np.fft.fftfreq(n)[i] * n`: counts
`0, 1, ..., ceil(n/2) - 1` then `-floor(n/2), ..., -1`. -/
def fftfreqInt (n : ℕ) (i : Fin n) : ℤ :=
  if (i : ℕ) < (n + 1) / 2 then (i : ℕ) else (i : ℕ) - (n : ℤ)

/-- Dot product of two real 3-vectors. -/
def dot3 (x y : Fin 3 → ℝ) : ℝ := ∑ a, x a * y a

/-- Cross product of two real 3-vectors (`np.cross`). -/
def cross3 (u v : Fin 3 → ℝ) : Fin 3 → ℝ :=
  ![u 1 * v 2 - u 2 * v 1, u 2 * v 0 - u 0 * v 2, u 0 * v 1 - u 1 * v 0]

/-- Sum of a grid of reals (`np.sum`). -/
def gridSum {n1 n2 n3 : ℕ} (f : Fin n1 × Fin n2 × Fin n3 → ℝ) : ℝ := ∑ x, f x

/-- Mean of a grid of reals (`np.average`). -/
def gridAvg {n1 n2 n3 : ℕ} (f : Fin n1 × Fin n2 × Fin n3 → ℝ) : ℝ :=
  gridSum f / ((n1 * n2 * n3 : ℕ) : ℝ)

/-- Three-dimensional `np.fft.fftn` of a real grid:
`F(k) = sum_x f(x) * exp(-2 pi i (k1 x1 / n1 + k2 x2 / n2 + k3 x3 / n3))`. -/
def fftn {n1 n2 n3 : ℕ} (f : Fin n1 × Fin n2 × Fin n3 → ℝ)
    (k : Fin n1 × Fin n2 × Fin n3) : ℂ :=
  ∑ x, (f x : ℂ) *
    Complex.exp (-(2 * Real.pi) * Complex.I *
      (((k.1 : ℕ) * (x.1 : ℕ) : ℕ) / (n1 : ℝ) +
       ((k.2.1 : ℕ) * (x.2.1 : ℕ) : ℕ) / (n2 : ℝ) +
       ((k.2.2 : ℕ) * (x.2.2 : ℕ) : ℕ) / (n3 : ℝ) : ℝ))

namespace UEPInput

variable (input : UEPInput)

/-- `inv_latt = np.linalg.inv(lattice.T) * 2 * np.pi`. -/
def inv_latt : Matrix (Fin 3) (Fin 3) ℝ :=
  (2 * Real.pi) • input.lattice.transpose⁻¹

/-- The integer FFT frequency triple at a grid index
(`np.fft.fftfreq(grid[i]) * grid[i]`, meshgrid with `indexing='ij'`). -/
def freqVec (idx : Fin input.n1 × Fin input.n2 × Fin input.n3) : Fin 3 → ℤ :=
  ![fftfreqInt input.n1 idx.1, fftfreqInt input.n2 idx.2.1,
    fftfreqInt input.n3 idx.2.2]

/-- `self._g_grid = np.tensordot(inv_latt, fft_grid, axes=(0, 0))`:
component `a` of the G-vector at a grid index. -/
def g_grid (idx : Fin input.n1 × Fin input.n2 × Fin input.n3) (a : Fin 3) : ℝ :=
  ∑ b, input.inv_latt b a * (input.freqVec idx b : ℝ)

/-- `Gnorm = np.linalg.norm(self._g_grid, axis=0)`. -/
def Gnorm (idx : Fin input.n1 × Fin input.n2 × Fin input.n3) : ℝ :=
  Real.sqrt (∑ a, (input.g_grid idx a) ^ 2)

/-- The reciprocal Poisson kernel `4 pi / Gnorm_fixed ** 2`, where
`Gnorm_fixed = np.where(Gnorm > 0, Gnorm, np.inf)`; the division of the
finite `4 pi` by `np.inf ** 2` yields exactly `0.0`, so the kernel is `0`
at the zero mode. -/
def Gfac (idx : Fin input.n1 × Fin input.n2 × Fin input.n3) : ℝ :=
  if 0 < input.Gnorm idx then 4 * Real.pi / (input.Gnorm idx) ^ 2 else 0

/-- `sum(q)`: total ionic (pseudopotential core) charge. -/
def totQ : ℝ := ∑ i, input.q i

/-- The stored electronic density after the in-place renormalisation
`self._rho *= -sum(q)/np.sum(self._rho)`. -/
def rhoNorm (idx : Fin input.n1 × Fin input.n2 × Fin input.n3) : ℝ :=
  input.rho0 idx * (-input.totQ / gridSum input.rho0)

/-- `self._rhoe_G = np.fft.fftn(self._rho)`. -/
def rhoe_G (idx : Fin input.n1 × Fin input.n2 × Fin input.n3) : ℂ :=
  fftn input.rhoNorm idx

/-- `vol = abs(np.dot(np.cross(cell[:, 0], cell[:, 1]), cell[:, 2]))`,
built from the columns of the real lattice matrix. -/
def vol : ℝ :=
  |dot3 (cross3 (fun i => input.lattice i 0) (fun i => input.lattice i 1))
    (fun i => input.lattice i 2)|

/-- `self._Ve_G = 4*np.pi/Gnorm_fixed**2*(self._rhoe_G / vol)`. -/
def Ve_G (idx : Fin input.n1 × Fin input.n2 × Fin input.n3) : ℂ :=
  (input.Gfac idx : ℝ) * (input.rhoe_G idx / (input.vol : ℝ))

/-- The ionic charge Fourier components accumulated over atoms:
`self._rhoi_G += q[i] * np.exp(-1j * G.p - 0.5 * (gw[i] * Gnorm)**2)`,
with `gw[i] = ppots[el][1] / gw_fac`. -/
def rhoi_G (gw_fac : ℝ)
    (idx : Fin input.n1 × Fin input.n2 × Fin input.n3) : ℂ :=
  ∑ i, (input.q i : ℂ) *
    Complex.exp (-(Complex.I * (dot3 (input.g_grid idx) (input.pos i) : ℝ)) -
      ((0.5 * ((input.pradius i / gw_fac) * input.Gnorm idx) ^ 2 : ℝ) : ℂ))

/-- `pregrid = (4*np.pi/Gnorm_fixed**2*1.0/vol)`;
`self._Vi_G = pregrid * self._rhoi_G`. -/
def Vi_G (gw_fac : ℝ)
    (idx : Fin input.n1 × Fin input.n2 × Fin input.n3) : ℂ :=
  ((input.Gfac idx * 1.0 / input.vol : ℝ) : ℂ) * input.rhoi_G gw_fac idx

/-- `dyad_G = g_grid[:, None] * g_grid[None, :]; dyad_G /= Gnorm_fixed**2`:
entrywise division by `np.inf ** 2` sends the zero mode to `0.0`. -/
def dyad (idx : Fin input.n1 × Fin input.n2 × Fin input.n3)
    (a b : Fin 3) : ℝ :=
  if 0 < input.Gnorm idx then
    input.g_grid idx a * input.g_grid idx b / (input.Gnorm idx) ^ 2
  else 0

/-- The dipolar tensor Fourier field built from a spin grid `s`:
`self._dip_G = 4/3*pi*(3*dyad_G - eye(3))`, entry `(0,0,0)` explicitly
zeroed, then multiplied by `spin_G/(vol * nvox)` and by `_dipT`. -/
def dipGF (s : Fin input.n1 × Fin input.n2 × Fin input.n3 → ℝ) (a b : Fin 3)
    (idx : Fin input.n1 × Fin input.n2 × Fin input.n3) : ℂ :=
  if (idx.1 : ℕ) = 0 ∧ (idx.2.1 : ℕ) = 0 ∧ (idx.2.2 : ℕ) = 0 then 0
  else
    ((4 / 3 * Real.pi *
        (3 * input.dyad idx a b - (if a = b then 1 else 0)) : ℝ) : ℂ) *
      (fftn s idx /
        ((input.vol * ((input.n1 * input.n2 * input.n3 : ℕ) : ℝ) : ℝ) : ℂ)) *
      ((dipT : ℝ) : ℂ)

end UEPInput

/-- The constructed engine: the immutable fields stored on `self` by
`ChargeDistribution.__init__` (those the query methods read). -/
structure ChargeDistribution where
  n1 : ℕ
  n2 : ℕ
  n3 : ℕ
  _g_grid : Fin n1 × Fin n2 × Fin n3 → Fin 3 → ℝ
  _vol : ℝ
  _rho : Fin n1 × Fin n2 × Fin n3 → ℝ
  _rhoe_G : Fin n1 × Fin n2 × Fin n3 → ℂ
  _Ve_G : Fin n1 × Fin n2 × Fin n3 → ℂ
  _rhoi_G : Fin n1 × Fin n2 × Fin n3 → ℂ
  _Vi_G : Fin n1 × Fin n2 × Fin n3 → ℂ
  _spinpol : Bool
  _spin_G : Option (Fin n1 × Fin n2 × Fin n3 → ℂ)
  _dip_G : Option (Fin 3 → Fin 3 → Fin n1 × Fin n2 × Fin n3 → ℂ)

/-- The field assembly of `__init__` (everything after the neutrality
check): the engine state as a pure function of the loaded input. -/
def cdOf (input : UEPInput) (gw_fac : ℝ) : ChargeDistribution where
  n1 := input.n1
  n2 := input.n2
  n3 := input.n3
  _g_grid := input.g_grid
  _vol := input.vol
  _rho := input.rhoNorm
  _rhoe_G := input.rhoe_G
  _Ve_G := input.Ve_G
  _rhoi_G := input.rhoi_G gw_fac
  _Vi_G := input.Vi_G gw_fac
  _spinpol := input.spin0.isSome
  _spin_G := input.spin0.map fftn
  _dip_G := input.spin0.map (fun s => fun a b idx => input.dipGF s a b idx)

/-- The message of the neutrality `RuntimeError`. -/
def neutralityMsg : String := "Cell is not neutral"

/-- `ChargeDistribution.__init__` from the point where grid, lattice and
atom data are in memory: the gate
`if not np.isclose(np.average(self._rho), sum(q), 1e-4): raise
RuntimeError('Cell is not neutral')` runs on the raw density, before the
renormalisation; on success every derived field is assembled. -/
def mkChargeDistribution (input : UEPInput) (gw_fac : ℝ) :
    Except PyError ChargeDistribution :=
  if pyIsclose (gridAvg input.rho0) input.totQ 1e-4 1e-8 then
    Except.ok (cdOf input gw_fac)
  else
    Except.error (PyError.runtimeError neutralityMsg)

namespace ChargeDistribution

variable (cd : ChargeDistribution)

/-- The Fourier kernel `ftk = np.exp(1.0j * np.tensordot(g_grid, p.T, ...))`
at one grid index and one query point. -/
def ftk (p : Fin 3 → ℝ) (idx : Fin cd.n1 × Fin cd.n2 × Fin cd.n3) : ℂ :=
  Complex.exp (Complex.I * (dot3 (cd._g_grid idx) p : ℝ))

/-- Electronic charge density at one point:
`np.real(np.sum(rhoe_G * ftk))`, then divided by `vol` (`e/Ang^3`). -/
def rhoePoint (p : Fin 3 → ℝ) : ℝ :=
  (∑ idx, cd._rhoe_G idx * cd.ftk p idx).re / cd._vol

/-- Ionic charge density at one point. -/
def rhoiPoint (p : Fin 3 → ℝ) : ℝ :=
  (∑ idx, cd._rhoi_G idx * cd.ftk p idx).re / cd._vol

/-- `ChargeDistribution.rho`: the `(rho, rhoe, rhoi)` triple of arrays
over a point list, computed chunk by chunk; `rho = rhoe + rhoi`. -/
def rho (ps : List (Fin 3 → ℝ)) (B : ℕ) : List ℝ × List ℝ × List ℝ :=
  let e := evalChunked (cd.rhoePoint) ps B
  let i := evalChunked (cd.rhoiPoint) ps B
  (List.zipWith (fun x y => x + y) e i, e, i)

/-- Electronic potential at one point:
`np.real(np.sum(Ve_G * ftk))`, scaled by `_cK * e * 1e10` to SI volts. -/
def VePoint (p : Fin 3 → ℝ) : ℝ :=
  (∑ idx, cd._Ve_G idx * cd.ftk p idx).re * (cK * eCharge * 1e10)

/-- Ionic potential at one point. -/
def ViPoint (p : Fin 3 → ℝ) : ℝ :=
  (∑ idx, cd._Vi_G idx * cd.ftk p idx).re * (cK * eCharge * 1e10)

/-- `ChargeDistribution.V`: the `(V, Ve, Vi)` triple over a point list,
computed chunk by chunk; `V = Ve + Vi`. -/
def V (ps : List (Fin 3 → ℝ)) (B : ℕ) : List ℝ × List ℝ × List ℝ :=
  let e := evalChunked (cd.VePoint) ps B
  let i := evalChunked (cd.ViPoint) ps B
  (List.zipWith (fun x y => x + y) e i, e, i)

/-- Electronic potential gradient at one point: the kernel is
`dftk = 1.0j * g_grid * ftk`, scaled by `_cK * e * 1e20`. -/
def dVePoint (p : Fin 3 → ℝ) : Fin 3 → ℝ := fun a =>
  (∑ idx, cd._Ve_G idx * (Complex.I * (cd._g_grid idx a : ℝ) * cd.ftk p idx)).re *
    (cK * eCharge * 1e20)

/-- Ionic potential gradient at one point. -/
def dViPoint (p : Fin 3 → ℝ) : Fin 3 → ℝ := fun a =>
  (∑ idx, cd._Vi_G idx * (Complex.I * (cd._g_grid idx a : ℝ) * cd.ftk p idx)).re *
    (cK * eCharge * 1e20)

/-- `ChargeDistribution.dV`: the `(dV, dVe, dVi)` triple over a point
list; `dV = dVe + dVi`. -/
def dV (ps : List (Fin 3 → ℝ)) (B : ℕ) :
    List (Fin 3 → ℝ) × List (Fin 3 → ℝ) × List (Fin 3 → ℝ) :=
  let e := evalChunked (cd.dVePoint) ps B
  let i := evalChunked (cd.dViPoint) ps B
  (List.zipWith (fun x y => x + y) e i, e, i)

/-- Electronic potential Hessian at one point: the kernel is
`d2ftk = -g2_mat * ftk` with `g2_mat = g_grid[:, None] * g_grid[None, :]`,
scaled by `_cK * e * 1e30`. -/
def d2VePoint (p : Fin 3 → ℝ) : Fin 3 → Fin 3 → ℝ := fun a b =>
  (∑ idx, cd._Ve_G idx *
      (-((cd._g_grid idx a * cd._g_grid idx b : ℝ) : ℂ) * cd.ftk p idx)).re *
    (cK * eCharge * 1e30)

/-- Ionic potential Hessian at one point. -/
def d2ViPoint (p : Fin 3 → ℝ) : Fin 3 → Fin 3 → ℝ := fun a b =>
  (∑ idx, cd._Vi_G idx *
      (-((cd._g_grid idx a * cd._g_grid idx b : ℝ) : ℂ) * cd.ftk p idx)).re *
    (cK * eCharge * 1e30)

/-- `ChargeDistribution.d2V`: the `(d2V, d2Ve, d2Vi)` triple over a point
list; `d2V = d2Ve + d2Vi`. -/
def d2V (ps : List (Fin 3 → ℝ)) (B : ℕ) :
    List (Fin 3 → Fin 3 → ℝ) × List (Fin 3 → Fin 3 → ℝ) ×
      List (Fin 3 → Fin 3 → ℝ) :=
  let e := evalChunked (cd.d2VePoint) ps B
  let i := evalChunked (cd.d2ViPoint) ps B
  (List.zipWith (fun x y => x + y) e i, e, i)

end ChargeDistribution

/-- Calling a Python `bool` object as a function: `bool` is not callable,
so the call raises `TypeError` whatever the value of the bool.  This is
what the guard `self.has_spin()` in `Hfine` does, `has_spin` being a
`@property` that returns the stored boolean `self._spinpol`. -/
def pyCallBool (_b : Bool) : Except PyError Bool :=
  Except.error PyError.typeError

/-- The message of the `RuntimeError` that `Hfine`'s docstring and guard
body intend for spin-less densities. -/
def noSpinMsg : String :=
  "Can not compute hyperfine tensor without spin polarised electronic density"

namespace ChargeDistribution

variable (cd : ChargeDistribution)

/-- The hyperfine tensor the body of `Hfine` would compute at one point:
`np.real(np.sum(dip_G * ftk))` plus, when `contact` is set, the Fermi
contact term `_fermiT * np.real(np.sum(spin_G * ftk)) / (vol * nvox)` on
the diagonal. -/
def HfinePoint (contact : Bool) (p : Fin 3 → ℝ) : Fin 3 → Fin 3 → ℝ :=
  fun a b =>
    (∑ idx, (cd._dip_G.getD (fun _ _ _ => 0)) a b idx * cd.ftk p idx).re +
      (if contact then
        (if a = b then
          (∑ idx, (cd._spin_G.getD (fun _ => 0)) idx * cd.ftk p idx).re *
            (fermiT / (cd._vol * ((cd.n1 * cd.n2 * cd.n3 : ℕ) : ℝ)))
        else 0)
      else 0)

/-- `ChargeDistribution.Hfine`: first the guard `if not self.has_spin():`
runs.  `self.has_spin` is the boolean property value, and the source
calls it, which raises `TypeError`; had the call succeeded, a `False`
result would raise the spin `RuntimeError` and a `True` result would
return the (single) array of hyperfine tensors. -/
def Hfine (ps : List (Fin 3 → ℝ)) (contact : Bool) (B : ℕ) :
    Except PyError (List (Fin 3 → Fin 3 → ℝ)) :=
  (pyCallBool cd._spinpol).bind (fun hs =>
    if hs then Except.ok (evalChunked (cd.HfinePoint contact) ps B)
    else Except.error (PyError.runtimeError noSpinMsg))

end ChargeDistribution

lemma chunkListF_flatten {α : Type _} (B : ℕ) (hB : 1 ≤ B) :
    ∀ (fuel : ℕ) (l : List α), l.length ≤ fuel →
      (chunkListF fuel B l).flatten = l := by
  intro fuel
  induction fuel with
  | zero =>
    intro l hl
    have : l = [] := List.length_eq_zero.mp (Nat.le_zero.mp hl)
    subst this
    rfl
  | succ n ih =>
    intro l hl
    cases l with
    | nil => rfl
    | cons a t =>
      have hdrop : ((a :: t).drop B).length ≤ n := by
        rw [List.length_drop]
        simp only [List.length_cons] at hl ⊢
        omega
      have hstep : chunkListF (n + 1) B (a :: t) =
          (a :: t).take B :: chunkListF n B ((a :: t).drop B) := rfl
      calc (chunkListF (n + 1) B (a :: t)).flatten
          = (a :: t).take B ++ (chunkListF n B ((a :: t).drop B)).flatten := by
            rw [hstep, List.flatten_cons]
        _ = (a :: t).take B ++ (a :: t).drop B := by rw [ih _ hdrop]
        _ = a :: t := List.take_append_drop B (a :: t)

lemma evalChunked_eq_map {α β : Type _} (f : α → β) (ps : List α) (B : ℕ)
    (hB : 1 ≤ B) : evalChunked f ps B = ps.map f := by
  rw [evalChunked, ← List.map_flatten, chunkList,
    chunkListF_flatten B hB ps.length ps le_rfl]

lemma mem_chunkListF {α : Type _} :
    ∀ (fuel B : ℕ) (l : List α) (c : List α), c ∈ chunkListF fuel B l →
      ∀ x ∈ c, x ∈ l := by
  intro fuel
  induction fuel with
  | zero => intro B l c hc; cases hc
  | succ n ih =>
    intro B l c hc x hx
    cases l with
    | nil => cases hc
    | cons a t =>
      have hstep : chunkListF (n + 1) B (a :: t) =
          (a :: t).take B :: chunkListF n B ((a :: t).drop B) := rfl
      rw [hstep] at hc
      rcases List.mem_cons.mp hc with h | h
      · exact List.take_subset B (a :: t) (h ▸ hx)
      · exact List.drop_subset B (a :: t) (ih B _ c h x hx)

lemma mem_evalChunked {α β : Type _} {f : α → β} {ps : List α} {B : ℕ}
    {y : β} (hy : y ∈ evalChunked f ps B) : ∃ p ∈ ps, y = f p := by
  rw [evalChunked] at hy
  rcases List.mem_flatten.mp hy with ⟨ys, hys, hyys⟩
  rcases List.mem_map.mp hys with ⟨c, hc, rfl⟩
  rcases List.mem_map.mp hyys with ⟨p, hp, rfl⟩
  exact ⟨p, mem_chunkListF _ _ _ _ hc p hp, rfl⟩

lemma evalChunked_length_eq {α β γ : Type _} (f : α → β) (g : α → γ)
    (ps : List α) (B : ℕ) :
    (evalChunked f ps B).length = (evalChunked g ps B).length := by
  simp [evalChunked, Function.comp_def]

lemma zipWith_map_same {α β : Type _} (f g : α → β) (h : β → β → β)
    (l : List α) :
    List.zipWith h (l.map f) (l.map g) = l.map (fun x => h (f x) (g x)) := by
  induction l with
  | nil => rfl
  | cons a t ih => simp [ih]

lemma zipWith_add_getD {α : Type _} [AddMonoid α] :
    ∀ (e i : List α), e.length = i.length → ∀ (k : ℕ),
      (List.zipWith (fun x y => x + y) e i).getD k 0 =
        e.getD k 0 + i.getD k 0 := by
  intro e
  induction e with
  | nil =>
    intro i hlen k
    have : i = [] := List.length_eq_zero.mp (by simpa using hlen.symm)
    subst this
    simp
  | cons a t ih =>
    intro i hlen k
    cases i with
    | nil => simp at hlen
    | cons b u =>
      cases k with
      | zero => simp
      | succ m =>
        simp only [List.zipWith_cons_cons, List.getD_cons_succ]
        exact ih u (by simpa using hlen) m

lemma getD_prop {α : Type _} (P : α → Prop) (l : List α) (d : α)
    (h0 : P d) (h : ∀ x ∈ l, P x) : ∀ (k : ℕ), P (l.getD k d) := by
  induction l with
  | nil => intro k; simpa using h0
  | cons a t ih =>
    intro k
    cases k with
    | zero => exact h a (List.mem_cons_self a t)
    | succ m =>
      exact ih (fun x hx => h x (List.mem_cons_of_mem a hx)) m

lemma all_mem_zipWith {α : Type _} (P : α → Prop) (h : α → α → α)
    (hcl : ∀ a b, P a → P b → P (h a b)) :
    ∀ (e i : List α), (∀ x ∈ e, P x) → (∀ x ∈ i, P x) →
      ∀ x ∈ List.zipWith h e i, P x := by
  intro e
  induction e with
  | nil => intro i _ _ x hx; simp at hx
  | cons a t ih =>
    intro i he hi x hx
    cases i with
    | nil => simp at hx
    | cons b u =>
      rw [List.zipWith_cons_cons] at hx
      rcases List.mem_cons.mp hx with rfl | hx
      · exact hcl a b (he a (by simp)) (hi b (by simp))
      · exact ih u (fun y hy => he y (by simp [hy]))
          (fun y hy => hi y (by simp [hy])) x hx

lemma d2VePoint_symm (cd : ChargeDistribution) (p : Fin 3 → ℝ) (a b : Fin 3) :
    cd.d2VePoint p a b = cd.d2VePoint p b a := by
  unfold ChargeDistribution.d2VePoint
  rw [Finset.sum_congr rfl]
  intro idx _
  rw [mul_comm (cd._g_grid idx a) (cd._g_grid idx b)]

lemma d2ViPoint_symm (cd : ChargeDistribution) (p : Fin 3 → ℝ) (a b : Fin 3) :
    cd.d2ViPoint p a b = cd.d2ViPoint p b a := by
  unfold ChargeDistribution.d2ViPoint
  rw [Finset.sum_congr rfl]
  intro idx _
  rw [mul_comm (cd._g_grid idx a) (cd._g_grid idx b)]

/-- C3: for every constructed engine, with or without spin data, and
every point list, `Hfine` raises an exception (a `TypeError`) before
computing any result, because the guard calls the boolean property
`has_spin` as if it were a method; `Hfine` therefore never returns a
hyperfine tensor on any input. -/
theorem C3_Hfine_always_raises (cd : ChargeDistribution)
    (ps : List (Fin 3 → ℝ)) (contact : Bool) (B : ℕ) :
    cd.Hfine ps contact B = Except.error PyError.typeError := rfl

/-- C8: for every fixed point list, every evaluation operation returns,
for every batch size of at least one, the same triple of result arrays,
equal to the per-point values in the original point order (so batch
size 1 agrees with batch size N); `Hfine`'s outcome likewise does not
depend on the batch size. -/
theorem C8_chunking_invariance (cd : ChargeDistribution)
    (ps : List (Fin 3 → ℝ)) (B : ℕ) (hB : 1 ≤ B) (contact : Bool) :
    cd.rho ps B = (ps.map (fun p => cd.rhoePoint p + cd.rhoiPoint p),
      ps.map cd.rhoePoint, ps.map cd.rhoiPoint) ∧
    cd.V ps B = (ps.map (fun p => cd.VePoint p + cd.ViPoint p),
      ps.map cd.VePoint, ps.map cd.ViPoint) ∧
    cd.dV ps B = (ps.map (fun p => cd.dVePoint p + cd.dViPoint p),
      ps.map cd.dVePoint, ps.map cd.dViPoint) ∧
    cd.d2V ps B = (ps.map (fun p => cd.d2VePoint p + cd.d2ViPoint p),
      ps.map cd.d2VePoint, ps.map cd.d2ViPoint) ∧
    cd.Hfine ps contact B = cd.Hfine ps contact 1 := by
  refine ⟨?_, ?_, ?_, ?_, rfl⟩
  · rw [ChargeDistribution.rho, evalChunked_eq_map _ _ _ hB,
      evalChunked_eq_map _ _ _ hB, zipWith_map_same]
  · rw [ChargeDistribution.V, evalChunked_eq_map _ _ _ hB,
      evalChunked_eq_map _ _ _ hB, zipWith_map_same]
  · rw [ChargeDistribution.dV, evalChunked_eq_map _ _ _ hB,
      evalChunked_eq_map _ _ _ hB, zipWith_map_same]
  · rw [ChargeDistribution.d2V, evalChunked_eq_map _ _ _ hB,
      evalChunked_eq_map _ _ _ hB, zipWith_map_same]

/-- C8 witness: the chunking theorem applied to a concrete engine, a
concrete two-point list and batch size 2. -/
theorem C8_chunking_invariance_witness :
    (1 : ℕ) ≤ 2 ∧
    ((cdOf ⟨1, 1, 1, 1, fun _ => 1, none, 1, fun _ => 1, fun _ => 1,
        fun _ _ => 0⟩ 3).rho [fun _ => 0, fun _ => 1] 2 =
      ([fun _ => 0, fun _ => 1].map
          (fun p => (cdOf ⟨1, 1, 1, 1, fun _ => 1, none, 1, fun _ => 1,
            fun _ => 1, fun _ _ => 0⟩ 3).rhoePoint p +
            (cdOf ⟨1, 1, 1, 1, fun _ => 1, none, 1, fun _ => 1,
              fun _ => 1, fun _ _ => 0⟩ 3).rhoiPoint p),
        [fun _ => 0, fun _ => 1].map
          (cdOf ⟨1, 1, 1, 1, fun _ => 1, none, 1, fun _ => 1, fun _ => 1,
            fun _ _ => 0⟩ 3).rhoePoint,
        [fun _ => 0, fun _ => 1].map
          (cdOf ⟨1, 1, 1, 1, fun _ => 1, none, 1, fun _ => 1, fun _ => 1,
            fun _ _ => 0⟩ 3).rhoiPoint)) := by
  refine ⟨by decide, ?_⟩
  exact (C8_chunking_invariance _ _ 2 (by decide) false).1

/-- A concrete loaded input: a 1x1x1 grid over the identity lattice,
uniform density 1, a single atom of core charge 1 and pseudopotential
radius 1 at the origin, no spin channel. -/
def inputOnes : UEPInput :=
  ⟨1, 1, 1, 1, fun _ => 1, none, 1, fun _ => 1, fun _ => 1, fun _ _ => 0⟩

/-- As `inputOnes` but with a (zero) spin channel present. -/
def inputSpin : UEPInput :=
  ⟨1, 1, 1, 1, fun _ => 1, some (fun _ => 0), 1, fun _ => 1, fun _ => 1,
    fun _ _ => 0⟩

/-- As `inputOnes` but with raw density -1: its mean is far from
`sum(q) = 1`, yet after renormalisation it would be exactly
`-sum(q)/volume`. -/
def inputNeg : UEPInput :=
  ⟨1, 1, 1, 1, fun _ => -1, none, 1, fun _ => 1, fun _ => 1, fun _ _ => 0⟩

/-- As `inputOnes` but over the lattice `diag(2,1,1)` of volume 2, so
that the voxel count (1) and the volume (2) differ. -/
def inputVol2 : UEPInput :=
  ⟨1, 1, 1, Matrix.of ![![2, 0, 0], ![0, 1, 0], ![0, 0, 1]], fun _ => 1,
    none, 1, fun _ => 1, fun _ => 1, fun _ _ => 0⟩

/-- C5 counterexample: `Hfine` does not return a (total, electronic,
ionic) triple: on a concrete engine (even one with a spin channel) and a
concrete point it raises `TypeError` and returns nothing at all (its
body would in any case produce a single array of tensors). -/
theorem C5_counterexample :
    (cdOf inputSpin 3).Hfine [fun _ => 0] false 20 =
      Except.error PyError.typeError := rfl

/-- C5 amended: the four operations that do return a (total, electronic,
ionic) triple of arrays — `rho`, `V`, `dV` and `d2V` — satisfy, at every
position of the result arrays, total = electronic + ionic exactly
(out-of-range positions read the default 0 = 0 + 0); `Hfine` is excluded
since it returns a single array, and in fact never returns (C3). -/
theorem C5_amended (cd : ChargeDistribution) (ps : List (Fin 3 → ℝ))
    (B : ℕ) (k : ℕ) :
    (cd.rho ps B).1.getD k 0 =
      (cd.rho ps B).2.1.getD k 0 + (cd.rho ps B).2.2.getD k 0 ∧
    (cd.V ps B).1.getD k 0 =
      (cd.V ps B).2.1.getD k 0 + (cd.V ps B).2.2.getD k 0 ∧
    (cd.dV ps B).1.getD k 0 =
      (cd.dV ps B).2.1.getD k 0 + (cd.dV ps B).2.2.getD k 0 ∧
    (cd.d2V ps B).1.getD k 0 =
      (cd.d2V ps B).2.1.getD k 0 + (cd.d2V ps B).2.2.getD k 0 := by
  refine ⟨?_, ?_, ?_, ?_⟩
  · exact zipWith_add_getD _ _ (evalChunked_length_eq _ _ ps B) k
  · exact zipWith_add_getD _ _ (evalChunked_length_eq _ _ ps B) k
  · exact zipWith_add_getD _ _ (evalChunked_length_eq _ _ ps B) k
  · exact zipWith_add_getD _ _ (evalChunked_length_eq _ _ ps B) k

/-- C9: every 3x3 tensor in each of the three arrays returned by `d2V`
(total, electronic and ionic) is symmetric, the Fourier coefficients
being pre-multiplied by the symmetric kernel `-G (x) G` (positions past
the end of an array read the symmetric default 0). -/
theorem C9_hessian_symmetric (cd : ChargeDistribution)
    (ps : List (Fin 3 → ℝ)) (B : ℕ) (k : ℕ) (a b : Fin 3) :
    ((cd.d2V ps B).1.getD k 0) a b = ((cd.d2V ps B).1.getD k 0) b a ∧
    ((cd.d2V ps B).2.1.getD k 0) a b = ((cd.d2V ps B).2.1.getD k 0) b a ∧
    ((cd.d2V ps B).2.2.getD k 0) a b = ((cd.d2V ps B).2.2.getD k 0) b a := by
  have he : ∀ M ∈ evalChunked (cd.d2VePoint) ps B,
      ∀ x y : Fin 3, M x y = M y x := by
    intro M hM x y
    rcases mem_evalChunked hM with ⟨p, _, rfl⟩
    exact d2VePoint_symm cd p x y
  have hi : ∀ M ∈ evalChunked (cd.d2ViPoint) ps B,
      ∀ x y : Fin 3, M x y = M y x := by
    intro M hM x y
    rcases mem_evalChunked hM with ⟨p, _, rfl⟩
    exact d2ViPoint_symm cd p x y
  have h0 : ∀ x y : Fin 3, (0 : Fin 3 → Fin 3 → ℝ) x y = (0 : Fin 3 → Fin 3 → ℝ) y x :=
    fun _ _ => rfl
  have hP : ∀ M ∈ List.zipWith (fun x y => x + y)
      (evalChunked (cd.d2VePoint) ps B) (evalChunked (cd.d2ViPoint) ps B),
      ∀ x y : Fin 3, M x y = M y x := by
    refine all_mem_zipWith
      (fun M : Fin 3 → Fin 3 → ℝ => ∀ x y : Fin 3, M x y = M y x)
      (fun x y => x + y) ?_ _ _ he hi
    intro M N hM hN x y
    show M x y + N x y = M y x + N y x
    rw [hM x y, hN x y]
  refine ⟨?_, ?_, ?_⟩
  · exact getD_prop
      (fun M : Fin 3 → Fin 3 → ℝ => ∀ x y : Fin 3, M x y = M y x)
      _ _ h0 hP k a b
  · exact getD_prop
      (fun M : Fin 3 → Fin 3 → ℝ => ∀ x y : Fin 3, M x y = M y x)
      _ _ h0 he k a b
  · exact getD_prop
      (fun M : Fin 3 → Fin 3 → ℝ => ∀ x y : Fin 3, M x y = M y x)
      _ _ h0 hi k a b

lemma gridSum111 (f : Fin 1 × Fin 1 × Fin 1 → ℝ) : gridSum f = f (0, 0, 0) := by
  simp [gridSum, Fintype.sum_prod_type, Fin.sum_univ_one]

lemma gridAvg111 (f : Fin 1 × Fin 1 × Fin 1 → ℝ) : gridAvg f = f (0, 0, 0) := by
  simp [gridAvg, gridSum111]

lemma totQ_inputOnes : inputOnes.totQ = 1 := by
  simp [UEPInput.totQ, inputOnes, Fin.sum_univ_one]

lemma totQ_inputNeg : inputNeg.totQ = 1 := by
  simp [UEPInput.totQ, inputNeg, Fin.sum_univ_one]

lemma totQ_inputVol2 : inputVol2.totQ = 1 := by
  simp [UEPInput.totQ, inputVol2, Fin.sum_univ_one]

lemma vol_inputOnes : inputOnes.vol = 1 := by
  simp [UEPInput.vol, inputOnes, dot3, cross3, Fin.sum_univ_three,
    Matrix.one_apply, Matrix.cons_val_zero, Matrix.cons_val_one,
    Matrix.head_cons]

lemma vol_inputNeg : inputNeg.vol = 1 := by
  simp [UEPInput.vol, inputNeg, dot3, cross3, Fin.sum_univ_three,
    Matrix.one_apply, Matrix.cons_val_zero, Matrix.cons_val_one,
    Matrix.head_cons]

lemma vol_inputVol2 : inputVol2.vol = 2 := by
  simp [UEPInput.vol, inputVol2, dot3, cross3, Fin.sum_univ_three,
    Matrix.cons_val_zero, Matrix.cons_val_one, Matrix.head_cons]

/-- C1 counterexample: on a concrete input the claim's reading of the
gate is wrong.  The raw density grid is constant -1 over a unit-volume
cell with total ionic charge 1: after the explicit renormalisation its
mean would be exactly -(total ionic charge)/volume (zero deviation, so
the claim predicts the gate passes), yet construction raises the
neutrality error, because the code checks the RAW grid mean against
`+sum(q)` BEFORE renormalising. -/
theorem C1_counterexample :
    mkChargeDistribution inputNeg 3 =
      Except.error (PyError.runtimeError neutralityMsg) ∧
    |gridAvg inputNeg.rhoNorm - (-inputNeg.totQ / inputNeg.vol)| ≤
      1e-4 * |(-inputNeg.totQ / inputNeg.vol)| := by
  have havg : gridAvg inputNeg.rho0 = -1 := by
    rw [show inputNeg.rho0 = (fun _ => (-1 : ℝ)) from rfl, gridAvg111]
  constructor
  · rw [mkChargeDistribution, if_neg]
    rw [havg, totQ_inputNeg, pyIsclose]
    norm_num
  · have hnorm : gridAvg inputNeg.rhoNorm = -1 := by
      rw [show inputNeg.rhoNorm =
          (fun _ => (-1 : ℝ) * (-inputNeg.totQ / gridSum inputNeg.rho0))
          from rfl, gridAvg111]
      rw [show gridSum inputNeg.rho0 = -1 from by
        rw [show inputNeg.rho0 = (fun _ => (-1 : ℝ)) from rfl, gridSum111]]
      rw [totQ_inputNeg]
      norm_num
    rw [hnorm, totQ_inputNeg, vol_inputNeg]
    norm_num

/-- C1 amended: construction raises the neutrality error ('Cell is not
neutral'), yielding no engine, exactly when the RAW density grid's mean
deviates from `+sum(q)` (the total ionic charge, not divided by volume)
beyond numpy's `isclose` tolerance `|mean - sum(q)| <= 1e-8 +
1e-4*|sum(q)|`; the check runs BEFORE the renormalisation step, and a
grid within that tolerance passes the gate and yields the engine. -/
theorem C1_amended (input : UEPInput) (gw_fac : ℝ) :
    (mkChargeDistribution input gw_fac =
        Except.error (PyError.runtimeError neutralityMsg) ↔
      ¬ pyIsclose (gridAvg input.rho0) input.totQ 1e-4 1e-8) ∧
    ((∃ cd, mkChargeDistribution input gw_fac = Except.ok cd) ↔
      pyIsclose (gridAvg input.rho0) input.totQ 1e-4 1e-8) := by
  by_cases h : pyIsclose (gridAvg input.rho0) input.totQ 1e-4 1e-8
  · rw [mkChargeDistribution, if_pos h]
    simp [h]
  · rw [mkChargeDistribution, if_neg h]
    simp [h]

/-- C2 (code bug): on an engine built from a density with no spin
channel, `Hfine` fails — but with `TypeError` (the guard calls the
boolean property `has_spin`), not with the spin-unavailability
`RuntimeError` that the method's own docstring promises. -/
theorem C2_hfine_wrong_error :
    (cdOf inputOnes 3).Hfine [fun _ => 0] false 20 =
      Except.error PyError.typeError ∧
    ∀ msg : String, (cdOf inputOnes 3).Hfine [fun _ => 0] false 20 ≠
      Except.error (PyError.runtimeError msg) := by
  refine ⟨rfl, ?_⟩
  intro msg h
  rw [show (cdOf inputOnes 3).Hfine [fun _ => 0] false 20 =
      Except.error PyError.typeError from rfl] at h
  exact PyError.noConfusion (Except.error.inj h)

/-- C4 counterexample: a concrete successful construction (voxel count
1, cell volume 2, total ionic charge 1) whose stored density mean is -1,
while -(total ionic charge)/volume is -1/2: the relative deviation is
far beyond 1e-4, so the claimed invariant fails — the rescale fixes the
grid SUM to -sum(q), hence the mean to -sum(q)/(voxel count), not to
-sum(q)/volume. -/
theorem C4_counterexample :
    mkChargeDistribution inputVol2 3 = Except.ok (cdOf inputVol2 3) ∧
    ¬ (|gridAvg (cdOf inputVol2 3)._rho -
          (-inputVol2.totQ / inputVol2.vol)| ≤
        1e-4 * |(-inputVol2.totQ / inputVol2.vol)|) := by
  have havg : gridAvg inputVol2.rho0 = 1 := by
    rw [show inputVol2.rho0 = (fun _ => (1 : ℝ)) from rfl, gridAvg111]
  constructor
  · rw [mkChargeDistribution, if_pos]
    rw [havg, totQ_inputVol2, pyIsclose]
    norm_num
  · have hnorm : gridAvg (cdOf inputVol2 3)._rho = -1 := by
      rw [show (cdOf inputVol2 3)._rho = inputVol2.rhoNorm from rfl]
      rw [show inputVol2.rhoNorm =
          (fun _ => (1 : ℝ) * (-inputVol2.totQ / gridSum inputVol2.rho0))
          from rfl, gridAvg111]
      rw [show gridSum inputVol2.rho0 = 1 from by
        rw [show inputVol2.rho0 = (fun _ => (1 : ℝ)) from rfl, gridSum111]]
      rw [totQ_inputVol2]
      norm_num
    rw [hnorm, totQ_inputVol2, vol_inputVol2]
    norm_num

/-- C4 amended: when construction succeeds and the raw grid has nonzero
sum, the one-time rescale makes the stored electronic density grid sum
to exactly -(total ionic charge), i.e. its mean is -(total ionic
charge)/(number of voxels) exactly (not -(total ionic charge)/volume);
the stored fields are never mutated afterwards — every query is a pure
function of them. -/
theorem C4_amended (input : UEPInput) (gw_fac : ℝ)
    (h1 : pyIsclose (gridAvg input.rho0) input.totQ 1e-4 1e-8)
    (h2 : gridSum input.rho0 ≠ 0) :
    mkChargeDistribution input gw_fac = Except.ok (cdOf input gw_fac) ∧
    gridSum (cdOf input gw_fac)._rho = -input.totQ ∧
    gridAvg (cdOf input gw_fac)._rho =
      -input.totQ / ((input.n1 * input.n2 * input.n3 : ℕ) : ℝ) := by
  have hsum : gridSum (cdOf input gw_fac)._rho = -input.totQ := by
    show gridSum input.rhoNorm = -input.totQ
    rw [gridSum]
    simp only [UEPInput.rhoNorm]
    rw [← Finset.sum_mul,
      show (∑ x, input.rho0 x) = gridSum input.rho0 from rfl, mul_comm,
      div_mul_cancel₀ _ h2]
  refine ⟨by rw [mkChargeDistribution, if_pos h1], hsum, ?_⟩
  rw [gridAvg, hsum]
  rfl

/-- C4 witness: the amended theorem applied to the concrete neutral
input `inputOnes`. -/
theorem C4_amended_witness :
    pyIsclose (gridAvg inputOnes.rho0) inputOnes.totQ 1e-4 1e-8 ∧
    gridSum inputOnes.rho0 ≠ 0 ∧
    (mkChargeDistribution inputOnes 3 = Except.ok (cdOf inputOnes 3) ∧
     gridSum (cdOf inputOnes 3)._rho = -inputOnes.totQ ∧
     gridAvg (cdOf inputOnes 3)._rho =
       -inputOnes.totQ /
         ((inputOnes.n1 * inputOnes.n2 * inputOnes.n3 : ℕ) : ℝ)) := by
  have havg : gridAvg inputOnes.rho0 = 1 := by
    rw [show inputOnes.rho0 = (fun _ => (1 : ℝ)) from rfl, gridAvg111]
  have hsum : gridSum inputOnes.rho0 = 1 := by
    rw [show inputOnes.rho0 = (fun _ => (1 : ℝ)) from rfl, gridSum111]
  have h1 : pyIsclose (gridAvg inputOnes.rho0) inputOnes.totQ 1e-4 1e-8 := by
    rw [havg, totQ_inputOnes, pyIsclose]
    norm_num
  have h2 : gridSum inputOnes.rho0 ≠ 0 := by
    rw [hsum]
    norm_num
  exact ⟨h1, h2, C4_amended inputOnes 3 h1 h2⟩

/-- C7: for every reciprocal-grid index, the ionic charge Fourier field
equals the sum over atoms of (core charge) x (plane-wave phase at the
atom position) x (Gaussian smearing factor), with width sigma =
pseudopotential radius / gw_fac. -/
theorem C7_ionic_fourier (input : UEPInput) (gw_fac : ℝ)
    (idx : Fin input.n1 × Fin input.n2 × Fin input.n3) :
    input.rhoi_G gw_fac idx =
      ∑ i, (input.q i : ℂ) *
        Complex.exp (-(Complex.I *
          (dot3 (input.g_grid idx) (input.pos i) : ℝ))) *
        Complex.exp (-((1 / 2 *
          ((input.pradius i / gw_fac) * input.Gnorm idx) ^ 2 : ℝ) : ℂ)) := by
  rw [UEPInput.rhoi_G]
  refine Finset.sum_congr rfl (fun i _ => ?_)
  rw [mul_assoc, ← Complex.exp_add]
  congr 1
  congr 1
  rw [show ((0.5 * ((input.pradius i / gw_fac) * input.Gnorm idx) ^ 2 : ℝ) : ℂ) =
      ((1 / 2 * ((input.pradius i / gw_fac) * input.Gnorm idx) ^ 2 : ℝ) : ℂ) from by
    norm_num]
  ring

lemma Gnorm_nonneg (input : UEPInput)
    (idx : Fin input.n1 × Fin input.n2 × Fin input.n3) :
    0 ≤ input.Gnorm idx := Real.sqrt_nonneg _

lemma Gnorm_eq_zero_iff (input : UEPInput)
    (idx : Fin input.n1 × Fin input.n2 × Fin input.n3) :
    input.Gnorm idx = 0 ↔ ∀ a, input.g_grid idx a = 0 := by
  rw [UEPInput.Gnorm, Real.sqrt_eq_zero (Finset.sum_nonneg
    (fun a _ => sq_nonneg _))]
  rw [Finset.sum_eq_zero_iff_of_nonneg (fun a _ => sq_nonneg _)]
  constructor
  · intro h a
    exact (pow_eq_zero_iff two_ne_zero).mp (h a (Finset.mem_univ a))
  · intro h a _
    rw [h a]
    ring

lemma Gnorm_pos_of_ne (input : UEPInput)
    (idx : Fin input.n1 × Fin input.n2 × Fin input.n3)
    (h : ¬ ∀ a, input.g_grid idx a = 0) : 0 < input.Gnorm idx :=
  lt_of_le_of_ne (Gnorm_nonneg input idx)
    (fun h0 => h ((Gnorm_eq_zero_iff input idx).mp h0.symm))

/-- C6: the zero-mode Fourier coefficients of the derived fields vanish
after construction — the electronic and ionic potential coefficients are
zero where G = 0 and the dipolar tensor field is zeroed at grid index
(0,0,0) — while every G-nonzero potential coefficient equals
4 pi rho(G) / (|G|^2 vol). -/
theorem C6_zero_mode (input : UEPInput) (gw_fac : ℝ)
    (idx : Fin input.n1 × Fin input.n2 × Fin input.n3) :
    ((∀ a, input.g_grid idx a = 0) →
      input.Ve_G idx = 0 ∧ input.Vi_G gw_fac idx = 0) ∧
    ((¬ ∀ a, input.g_grid idx a = 0) →
      input.Ve_G idx = ((4 * Real.pi : ℝ) : ℂ) * input.rhoe_G idx /
          ((input.Gnorm idx ^ 2 * input.vol : ℝ) : ℂ) ∧
      input.Vi_G gw_fac idx =
        ((4 * Real.pi : ℝ) : ℂ) * input.rhoi_G gw_fac idx /
          ((input.Gnorm idx ^ 2 * input.vol : ℝ) : ℂ)) ∧
    (∀ s : Fin input.n1 × Fin input.n2 × Fin input.n3 → ℝ,
      ((idx.1 : ℕ) = 0 ∧ (idx.2.1 : ℕ) = 0 ∧ (idx.2.2 : ℕ) = 0) →
      ∀ a b : Fin 3, input.dipGF s a b idx = 0) := by
  refine ⟨?_, ?_, ?_⟩
  · intro h
    have h0 : input.Gnorm idx = 0 := (Gnorm_eq_zero_iff input idx).mpr h
    have hfac : input.Gfac idx = 0 := by
      rw [UEPInput.Gfac, if_neg]
      rw [h0]
      exact lt_irrefl 0
    constructor
    · rw [UEPInput.Ve_G, hfac]
      simp
    · rw [UEPInput.Vi_G, hfac]
      simp
  · intro h
    have hpos : 0 < input.Gnorm idx := Gnorm_pos_of_ne input idx h
    have hfac : input.Gfac idx = 4 * Real.pi / (input.Gnorm idx) ^ 2 := by
      rw [UEPInput.Gfac, if_pos hpos]
    constructor
    · rw [UEPInput.Ve_G, hfac]
      push_cast
      rw [div_mul_div_comm]
    · rw [UEPInput.Vi_G, hfac]
      push_cast
      rw [show ((1.0 : ℝ) : ℂ) = 1 from by norm_num]
      ring
  · intro s h a b
    rw [UEPInput.dipGF, if_pos h]

/-- The only index of a 1x1x1 grid. -/
def idx111 : Fin 1 × Fin 1 × Fin 1 := (0, 0, 0)

/-- C6 witness: on the concrete engine input `inputOnes` the only grid
index carries G = 0 and both potential coefficients vanish there. -/
theorem C6_zero_mode_witness :
    (∀ a, inputOnes.g_grid idx111 a = 0) ∧
    UEPInput.Ve_G inputOnes idx111 = 0 ∧
    UEPInput.Vi_G inputOnes 3 idx111 = 0 := by
  have hf : ∀ b, ((inputOnes.freqVec idx111 b : ℤ) : ℝ) = 0 := by
    intro b
    fin_cases b <;>
      simp [UEPInput.freqVec, fftfreqInt, inputOnes, Matrix.cons_val_zero,
        Matrix.cons_val_one, Matrix.head_cons]
  have hg : ∀ a, inputOnes.g_grid idx111 a = 0 := by
    intro a
    rw [UEPInput.g_grid]
    refine Finset.sum_eq_zero (fun b _ => ?_)
    rw [hf b, mul_zero]
  obtain ⟨h1, h2⟩ := (C6_zero_mode inputOnes 3 idx111).1 hg
  exact ⟨hg, h1, h2⟩

/-- An integer combination of the lattice (row) vectors
`R = sum_i n_i * lattice[i]`. -/
def UEPInput.lattVec (input : UEPInput) (n : Fin 3 → ℤ) : Fin 3 → ℝ :=
  fun a => ∑ i, (n i : ℝ) * input.lattice i a

lemma dot3_add_right (x y z : Fin 3 → ℝ) :
    dot3 x (y + z) = dot3 x y + dot3 x z := by
  rw [dot3, dot3, dot3, ← Finset.sum_add_distrib]
  exact Finset.sum_congr rfl (fun a _ => by rw [Pi.add_apply, mul_add])

lemma g_dot_lattVec (input : UEPInput) (h : IsUnit input.lattice.det)
    (idx : Fin input.n1 × Fin input.n2 × Fin input.n3) (n : Fin 3 → ℤ) :
    dot3 (input.g_grid idx) (input.lattVec n) =
      2 * Real.pi * ((∑ b, input.freqVec idx b * n b : ℤ) : ℝ) := by
  have hAL : input.lattice.transpose⁻¹ * input.lattice.transpose = 1 :=
    Matrix.nonsing_inv_mul _ (by rwa [Matrix.det_transpose])
  have hg : input.g_grid idx =
      Matrix.vecMul (fun b => (input.freqVec idx b : ℝ)) input.inv_latt := by
    funext a
    rw [UEPInput.g_grid, Matrix.vecMul, Matrix.dotProduct]
    exact Finset.sum_congr rfl (fun b _ => mul_comm _ _)
  have hR : input.lattVec n =
      Matrix.mulVec input.lattice.transpose (fun i => (n i : ℝ)) := by
    funext a
    rw [UEPInput.lattVec, Matrix.mulVec, Matrix.dotProduct]
    exact Finset.sum_congr rfl
      (fun i _ => by rw [Matrix.transpose_apply, mul_comm])
  have hvm : Matrix.vecMul (fun b => (input.freqVec idx b : ℝ))
      ((2 * Real.pi) • (1 : Matrix (Fin 3) (Fin 3) ℝ)) =
      (2 * Real.pi) • (fun b => (input.freqVec idx b : ℝ)) := by
    funext j
    rw [Matrix.vecMul, Matrix.dotProduct]
    simp [Matrix.smul_apply, Matrix.one_apply, smul_eq_mul, mul_ite,
      Finset.sum_ite_eq', mul_comm]
  rw [show dot3 (input.g_grid idx) (input.lattVec n) =
      Matrix.dotProduct (input.g_grid idx) (input.lattVec n) from rfl]
  rw [hg, hR, Matrix.dotProduct_mulVec, Matrix.vecMul_vecMul,
    UEPInput.inv_latt, smul_mul_assoc, hAL, hvm, Matrix.smul_dotProduct]
  rw [smul_eq_mul, mul_eq_mul_left_iff]
  left
  rw [Matrix.dotProduct]
  push_cast
  rfl

lemma ftk_lattVec (input : UEPInput) (gw_fac : ℝ)
    (h : IsUnit input.lattice.det) (p : Fin 3 → ℝ) (n : Fin 3 → ℤ)
    (idx : Fin input.n1 × Fin input.n2 × Fin input.n3) :
    (cdOf input gw_fac).ftk (p + input.lattVec n) idx =
      (cdOf input gw_fac).ftk p idx := by
  show Complex.exp (Complex.I *
      ((dot3 (input.g_grid idx) (p + input.lattVec n) : ℝ) : ℂ)) =
    Complex.exp (Complex.I * ((dot3 (input.g_grid idx) p : ℝ) : ℂ))
  rw [dot3_add_right, g_dot_lattVec input h idx n, Complex.ofReal_add,
    mul_add, Complex.exp_add]
  rw [show Complex.I *
      ((2 * Real.pi * ((∑ b, input.freqVec idx b * n b : ℤ) : ℝ) : ℝ) : ℂ) =
      ((∑ b, input.freqVec idx b * n b : ℤ) : ℂ) *
        (2 * (Real.pi : ℂ) * Complex.I) from by push_cast; ring]
  rw [Complex.exp_int_mul_two_pi_mul_I, mul_one]

lemma VePoint_congr (cd : ChargeDistribution) (p q : Fin 3 → ℝ)
    (hf : ∀ idx, cd.ftk p idx = cd.ftk q idx) :
    cd.VePoint p = cd.VePoint q := by
  rw [ChargeDistribution.VePoint, ChargeDistribution.VePoint,
    Finset.sum_congr rfl (fun idx _ => by rw [hf idx])]

lemma ViPoint_congr (cd : ChargeDistribution) (p q : Fin 3 → ℝ)
    (hf : ∀ idx, cd.ftk p idx = cd.ftk q idx) :
    cd.ViPoint p = cd.ViPoint q := by
  rw [ChargeDistribution.ViPoint, ChargeDistribution.ViPoint,
    Finset.sum_congr rfl (fun idx _ => by rw [hf idx])]

/-- C10: the potential is periodic under lattice translations — for
every query point and every integer combination of the lattice vectors,
the electronic, ionic and total per-point potentials are unchanged,
because every G-vector of the grid has G.R in 2 pi times the integers. -/
theorem C10_periodicity (input : UEPInput) (gw_fac : ℝ)
    (h : IsUnit input.lattice.det) (p : Fin 3 → ℝ) (n : Fin 3 → ℤ) :
    (cdOf input gw_fac).VePoint (p + input.lattVec n) =
      (cdOf input gw_fac).VePoint p ∧
    (cdOf input gw_fac).ViPoint (p + input.lattVec n) =
      (cdOf input gw_fac).ViPoint p ∧
    (cdOf input gw_fac).VePoint (p + input.lattVec n) +
        (cdOf input gw_fac).ViPoint (p + input.lattVec n) =
      (cdOf input gw_fac).VePoint p + (cdOf input gw_fac).ViPoint p := by
  have hf : ∀ idx, (cdOf input gw_fac).ftk (p + input.lattVec n) idx =
      (cdOf input gw_fac).ftk p idx := ftk_lattVec input gw_fac h p n
  have h1 := VePoint_congr (cdOf input gw_fac) _ _ hf
  have h2 := ViPoint_congr (cdOf input gw_fac) _ _ hf
  exact ⟨h1, h2, by rw [h1, h2]⟩

/-- C10 witness: the periodicity theorem applied to the concrete engine
over the identity lattice, at the origin, shifted by (1,1,1). -/
theorem C10_periodicity_witness :
    IsUnit inputOnes.lattice.det ∧
    ((cdOf inputOnes 3).VePoint
        ((fun _ => 0) + inputOnes.lattVec (fun _ => 1)) =
      (cdOf inputOnes 3).VePoint (fun _ => 0) ∧
    (cdOf inputOnes 3).ViPoint
        ((fun _ => 0) + inputOnes.lattVec (fun _ => 1)) =
      (cdOf inputOnes 3).ViPoint (fun _ => 0) ∧
    (cdOf inputOnes 3).VePoint
        ((fun _ => 0) + inputOnes.lattVec (fun _ => 1)) +
        (cdOf inputOnes 3).ViPoint
          ((fun _ => 0) + inputOnes.lattVec (fun _ => 1)) =
      (cdOf inputOnes 3).VePoint (fun _ => 0) +
        (cdOf inputOnes 3).ViPoint (fun _ => 0)) := by
  have hu : IsUnit inputOnes.lattice.det := by
    rw [show inputOnes.lattice = 1 from rfl, Matrix.det_one]
    exact isUnit_one
  exact ⟨hu, C10_periodicity inputOnes 3 hu (fun _ => 0) (fun _ => 1)⟩
